import Mathlib

/-!
Verification development for the debate-position annotation tool
(`streamlit_app.py`).  The functions below are shallow embeddings of the
Python source: the fuzzy name highlighter `highlight_speaker_name`
(tokenisation on word characters, stopword filtering, rapidfuzz
`fuzz.ratio` similarity, span collection, sort/dedup and markup
rendering) and the feedback store (`record_feedback`, `get_feedback`,
`get_comment`) together with the comment-saving logic of `main`.
Strings are modelled as `List Char`, Python `None` as `Option`, Python
dicts as in-order association lists, and the rapidfuzz similarity as the
exact rational normalised indel similarity `200 * lcs / (|a| + |b|)`.
-/

set_option autoImplicit false
set_option maxRecDepth 16384

namespace PosExtract

/-- The fixed stopword set from the top of `streamlit_app.py`. -/
def STOPWORDS : List (List Char) :=
  List.map String.toList
    ["the", "a", "an", "and", "or", "but", "in", "on", "at", "to", "for",
     "of", "with", "by", "from", "as", "is", "was", "are", "were", "been",
     "be", "have", "has", "had", "do", "does", "did", "will", "would",
     "should", "could", "may", "might", "must", "can", "this", "that",
     "these", "those", "i", "you", "he", "she", "it", "we", "they", "clear", "non"]

/-- Word characters of the regex `\w` (ASCII fragment): letters, digits, underscore. -/
def isWordChar (c : Char) : Bool := c.isAlphanum || c == '_'

/-- State-machine scan implementing `re.finditer(r'\b\w+\b', text)`: it yields the
maximal runs of word characters together with their start offsets.  The state
holds the start offset and the reversed characters of the word being read. -/
def tokenizeGo : List Char → Nat → Option (Nat × List Char) → List (Nat × List Char)
  | [], _, none => []
  | [], _, some (s, w) => [(s, w.reverse)]
  | c :: cs, i, none =>
    if isWordChar c then tokenizeGo cs (i + 1) (some (i, [c]))
    else tokenizeGo cs (i + 1) none
  | c :: cs, i, some (s, w) =>
    if isWordChar c then tokenizeGo cs (i + 1) (some (s, c :: w))
    else (s, w.reverse) :: tokenizeGo cs (i + 1) none

/-- All `\b\w+\b` matches of `text` as (start offset, word) pairs, in text order. -/
def tokenize (text : List Char) : List (Nat × List Char) := tokenizeGo text 0 none

/-- State-machine scan implementing Python `str.split()` (split on whitespace
runs, dropping empty tokens). -/
def splitGo : List Char → Option (List Char) → List (List Char)
  | [], none => []
  | [], some w => [w.reverse]
  | c :: cs, none =>
    if c.isWhitespace then splitGo cs none else splitGo cs (some [c])
  | c :: cs, some w =>
    if c.isWhitespace then w.reverse :: splitGo cs none else splitGo cs (some (c :: w))

/-- `speaker_name.split()`: the whitespace-separated name parts. -/
def splitWhite (s : List Char) : List (List Char) := splitGo s none

/-- Python `str.lower()` (ASCII fragment). -/
def lowerStr (s : List Char) : List Char := s.map Char.toLower

/-- Length of a longest common subsequence, with explicit fuel (any fuel at
least `a.length + b.length` gives the same value, see `lcsLenF_fuel`). -/
def lcsLenF : Nat → List Char → List Char → Nat
  | _, [], _ => 0
  | _, _ :: _, [] => 0
  | 0, _ :: _, _ :: _ => 0
  | f + 1, a :: as, b :: bs =>
    if a = b then lcsLenF f as bs + 1
    else max (lcsLenF f (a :: as) bs) (lcsLenF f as (b :: bs))

/-- Length of a longest common subsequence of two character lists. -/
def lcsLen (a b : List Char) : Nat := lcsLenF (a.length + b.length) a b

/-- rapidfuzz `fuzz.ratio`: the normalised indel similarity
`100 * (1 - dist / (|a| + |b|))` with `dist = |a| + |b| - 2 * lcs`,
i.e. the rational `200 * lcs / (|a| + |b|)`, and `100` when both strings are
empty (built with `mkRat`, which is the same division, see `fuzzRatio_eq_div`). -/
def fuzzRatio (a b : List Char) : ℚ :=
  if a.length + b.length = 0 then 100
  else mkRat (200 * (lcsLen a b : ℤ)) (a.length + b.length)

/-- The inner loop `for name in names_to_check: ... if score >= threshold: ... break`
of `highlight_speaker_name`: whether some name in the list, scanned in order,
scores at least `t` against the word (both sides lowercased). -/
def checkNames (w : List Char) (t : ℤ) : List (List Char) → Bool
  | [] => false
  | n :: ns =>
    if (t : ℚ) ≤ fuzzRatio (lowerStr w) (lowerStr n) then true else checkNames w t ns

/-- The main word loop of `highlight_speaker_name`: it walks the tokens of the
text, skips stopwords, and records the span `(start, end)` of every word for
which some name to check reaches the threshold. -/
def collectPositions (names : List (List Char)) (t : ℤ) :
    List (Nat × List Char) → List (Nat × Nat)
  | [] => []
  | p :: rest =>
    if lowerStr p.2 ∈ STOPWORDS then collectPositions names t rest
    else if checkNames p.2 t names then
      (p.1, p.1 + p.2.length) :: collectPositions names t rest
    else collectPositions names t rest

/-- Insertion into a list sorted by the lexicographic order on pairs. -/
def insertPos (p : Nat × Nat) : List (Nat × Nat) → List (Nat × Nat)
  | [] => [p]
  | q :: qs =>
    if p.1 < q.1 ∨ (p.1 = q.1 ∧ p.2 ≤ q.2) then p :: q :: qs else q :: insertPos p qs

/-- Sorting by the lexicographic order on pairs (insertion sort). -/
def sortPos (l : List (Nat × Nat)) : List (Nat × Nat) := l.foldr insertPos []

/-- Python `sorted(set(positions))`: duplicates removed, then sorted ascending. -/
def sortedDedup (l : List (Nat × Nat)) : List (Nat × Nat) := sortPos l.dedup

/-- The opening highlight marker inserted by `highlight_speaker_name`. -/
def markOpen : List Char :=
  ("<mark style=\"background-color: #FFD700; padding: 2px 4px; border-radius: 3px;\">").toList

/-- The closing highlight marker. -/
def markClose : List Char := ("</mark>").toList

/-- Python slice `l[a:b]` for `0 ≤ a, b` (clamped at the ends, empty when `b ≤ a`). -/
def sliceL (l : List Char) (a b : Nat) : List Char := (l.drop a).take (b - a)

/-- The result-building loop of `highlight_speaker_name`: walk the spans,
emitting the text before each span, the span's substring wrapped in the
highlight markers, and finally the tail after the last span. -/
def renderAux (text : List Char) : List (Nat × Nat) → Nat → List Char
  | [], lastEnd => text.drop lastEnd
  | p :: rest, lastEnd =>
    sliceL text lastEnd p.1 ++ markOpen ++ sliceL text p.1 p.2 ++ markClose
      ++ renderAux text rest p.2

/-- The body of `highlight_speaker_name` after the emptiness guards, for
non-absent text and name. -/
def highlightCore (text nm : List Char) (t : ℤ) : List Char :=
  let positions := collectPositions (nm :: splitWhite nm) t (tokenize text)
  if positions = [] then text else renderAux text (sortedDedup positions) 0

/-- The deduplicated, sorted list of highlight spans that `highlight_speaker_name`
renders for the given text, speaker name and threshold. -/
def highlightPositions (text nm : List Char) (t : ℤ) : List (Nat × Nat) :=
  sortedDedup (collectPositions (nm :: splitWhite nm) t (tokenize text))

/-- Python truthiness of an optional string: `None` and `""` are falsy. -/
def py_falsy : Option (List Char) → Bool
  | none => true
  | some [] => true
  | some (_ :: _) => false

/-- `highlight_speaker_name(text, speaker_name, threshold)`: returns `text`
unchanged when `text` or `speaker_name` is falsy, otherwise highlights. -/
def highlight_speaker_name (text speaker_name : Option (List Char)) (threshold : ℤ) :
    Option (List Char) :=
  if py_falsy text || py_falsy speaker_name then text
  else
    match text, speaker_name with
    | some txt, some nm => some (highlightCore txt nm threshold)
    | _, _ => text

/-- Whether `pat` occurs as a contiguous segment of `s`. -/
def containsSeg (pat s : List Char) : Bool := s.tails.any fun tl => pat.isPrefixOf tl

/-- A text is clean when neither highlight marker occurs in it. -/
abbrev Clean (s : List Char) : Prop :=
  containsSeg markOpen s = false ∧ containsSeg markClose s = false

/-- Marker removal with explicit fuel (any fuel at least `s.length` gives the
same value, see `stripTagsF_fuel`). -/
def stripTagsF : Nat → List Char → List Char
  | _, [] => []
  | 0, c :: cs => c :: cs
  | f + 1, c :: cs =>
    if markOpen.isPrefixOf (c :: cs) then stripTagsF f ((c :: cs).drop markOpen.length)
    else if markClose.isPrefixOf (c :: cs) then stripTagsF f ((c :: cs).drop markClose.length)
    else c :: stripTagsF f cs

/-- Remove every occurrence of the two highlight marker strings, scanning left
to right. -/
def stripTags (s : List Char) : List Char := stripTagsF s.length s

/-- Well-formed token lists: starts are at least `low`, words are nonempty, and
each token starts no earlier than the previous one ends. -/
def TokWf : Nat → List (Nat × List Char) → Prop
  | _, [] => True
  | low, p :: rest => low ≤ p.1 ∧ p.2 ≠ [] ∧ TokWf (p.1 + p.2.length) rest

/-- Well-formed span lists: nonempty spans in ascending, non-overlapping order,
all starting at or after `low`. -/
def StrictWf : Nat → List (Nat × Nat) → Prop
  | _, [] => True
  | low, p :: rest => low ≤ p.1 ∧ p.1 < p.2 ∧ StrictWf p.2 rest

/-- A value stored in the feedback dictionary: Python booleans (thumbs) or
strings (comments). -/
inductive FV where
  | b (x : Bool)
  | s (x : List Char)
deriving DecidableEq

/-- The feedback store `feedback_data`: a dictionary from row keys to
dictionaries from field names to values, modelled as in-order association
lists. -/
abbrev FStore : Type := List (List Char × List (List Char × FV))

/-- Dictionary lookup on an association list. -/
def dlookup {α : Type} (k : List Char) : List (List Char × α) → Option α
  | [] => none
  | p :: rest => if p.1 = k then some p.2 else dlookup k rest

/-- Dictionary update on an association list: replace in place when the key is
present, append otherwise (Python dict assignment). -/
def dinsert {α : Type} (k : List Char) (v : α) : List (List Char × α) → List (List Char × α)
  | [] => [(k, v)]
  | p :: rest => if p.1 = k then (p.1, v) :: rest else p :: dinsert k v rest

/-- Decimal digit characters. -/
def digitChar : Nat → Char
  | 0 => '0'
  | 1 => '1'
  | 2 => '2'
  | 3 => '3'
  | 4 => '4'
  | 5 => '5'
  | 6 => '6'
  | 7 => '7'
  | 8 => '8'
  | _ => '9'

/-- Decimal digits with explicit fuel (any fuel at least `n` gives the same
value, see `natDigitsF_fuel`). -/
def natDigitsF : Nat → Nat → List Char
  | 0, n => [digitChar n]
  | f + 1, n =>
    if n < 10 then [digitChar n]
    else natDigitsF f (n / 10) ++ [digitChar (n % 10)]

/-- Decimal representation of a natural number, as produced by Python
`f"{row_index}"`. -/
def natDigits (n : Nat) : List Char := natDigitsF n n

/-- The key `f"row_{row_index}"` used by the feedback store. -/
def rowKey (row : Nat) : List Char := ("row_").toList ++ natDigits row

/-- The suffix of comment keys `f"{summary_type}_comment"`. -/
def commentSuffix : List Char := ("_comment").toList

/-- `record_feedback(row_index, summary_type, feedback_value, comment)`:
initialise the row entry if absent, store `feedback_value == "up"` under the
summary type, store the comment under `summary_type + "_comment"` when one is
given, and write the store back. -/
def record_feedback (store : FStore) (row : Nat) (stype fv : List Char)
    (comment : Option (List Char)) : FStore :=
  let key := rowKey row
  let rowd0 := (dlookup key store).getD []
  let rowd1 := dinsert stype (FV.b (fv == ("up").toList)) rowd0
  let rowd2 :=
    match comment with
    | some c => dinsert (stype ++ commentSuffix) (FV.s c) rowd1
    | none => rowd1
  dinsert key rowd2 store

/-- `get_feedback(row_index, summary_type)`: the stored thumbs value, `none`
when unset. -/
def get_feedback (store : FStore) (row : Nat) (stype : List Char) : Option FV :=
  dlookup stype ((dlookup (rowKey row) store).getD [])

/-- `get_comment(row_index, summary_type)`: the stored comment value, the empty
string when unset. -/
def get_comment (store : FStore) (row : Nat) (stype : List Char) : FV :=
  (dlookup (stype ++ commentSuffix) ((dlookup (rowKey row) store).getD [])).getD (FV.s [])

/-- Python `!=` between the freshly typed comment string and the value returned
by `get_comment` (a value of a different type is always unequal). -/
def strNeFv (c : List Char) : FV → Bool
  | FV.s d => !(c == d)
  | FV.b _ => true

/-- The re-derived feedback value of the comment-saving logic in `main`:
`"up" if current_feedback is True else "down" if current_feedback is False else "up"`. -/
def derive_fv : Option FV → List Char
  | some (FV.b true) => ("up").toList
  | some (FV.b false) => ("down").toList
  | _ => ("up").toList

/-- The comment-saving logic of `main` (lines 379-382): when the typed comment
differs from the stored one, record feedback with the re-derived thumbs value
and the new comment. -/
def save_comment (store : FStore) (row : Nat) (stype c : List Char) : FStore :=
  if strNeFv c (get_comment store row stype) then
    record_feedback store row stype (derive_fv (get_feedback store row stype)) (some c)
  else store

/-- Numeric value of a decimal digit character. -/
def digitVal (c : Char) : Nat := c.toNat - 48

/-- Parse a decimal digit string back to a natural number. -/
def parseNat (l : List Char) : Nat := l.foldl (fun a c => 10 * a + digitVal c) 0

/-! ### Fuel independence and unfolding equations -/

theorem lcsLenF_fuel : ∀ (f g : Nat) (a b : List Char),
    a.length + b.length ≤ f → a.length + b.length ≤ g →
    lcsLenF f a b = lcsLenF g a b := by
  intro f
  induction f with
  | zero =>
    intro g a b h1 _
    cases a with
    | nil => cases b <;> simp [lcsLenF]
    | cons x xs => simp at h1
  | succ f ih =>
    intro g a b h1 h2
    cases a with
    | nil => cases b <;> simp [lcsLenF]
    | cons x xs =>
      cases b with
      | nil => simp [lcsLenF]
      | cons y ys =>
        simp only [List.length_cons] at h1 h2
        cases g with
        | zero => omega
        | succ g =>
          simp only [lcsLenF]
          split_ifs with hxy
          · rw [ih g xs ys (by omega) (by omega)]
          · rw [ih g (x :: xs) ys (by simp; omega) (by simp; omega),
              ih g xs (y :: ys) (by simp; omega) (by simp; omega)]

theorem lcsLen_nil_left (b : List Char) : lcsLen [] b = 0 := by
  simp [lcsLen, lcsLenF]

theorem lcsLen_nil_right (a : List Char) : lcsLen a [] = 0 := by
  cases a <;> simp [lcsLen, lcsLenF]

theorem lcsLen_cons_cons (x y : Char) (xs ys : List Char) :
    lcsLen (x :: xs) (y :: ys)
      = if x = y then lcsLen xs ys + 1
        else max (lcsLen (x :: xs) ys) (lcsLen xs (y :: ys)) := by
  have hs : (x :: xs).length + (y :: ys).length = (xs.length + ys.length + 1) + 1 := by
    simp only [List.length_cons]
    omega
  show lcsLenF ((x :: xs).length + (y :: ys).length) (x :: xs) (y :: ys) = _
  rw [hs]
  simp only [lcsLenF]
  split_ifs with hxy
  · rw [lcsLenF_fuel (xs.length + ys.length + 1) (xs.length + ys.length) xs ys
      (by omega) (le_refl _)]
    rfl
  · rw [lcsLenF_fuel (xs.length + ys.length + 1) ((x :: xs).length + ys.length)
      (x :: xs) ys (by simp; omega) (by simp)]
    rw [lcsLenF_fuel (xs.length + ys.length + 1) (xs.length + (y :: ys).length)
      xs (y :: ys) (by simp; omega) (by simp)]
    rfl

theorem stripTagsF_fuel : ∀ (f g : Nat) (s : List Char),
    s.length ≤ f → s.length ≤ g → stripTagsF f s = stripTagsF g s := by
  intro f
  induction f with
  | zero =>
    intro g s h1 _
    cases s with
    | nil => cases g <;> simp [stripTagsF]
    | cons c cs => simp at h1
  | succ f ih =>
    intro g s h1 h2
    cases s with
    | nil => cases g <;> simp [stripTagsF]
    | cons c cs =>
      simp only [List.length_cons] at h1 h2
      cases g with
      | zero => omega
      | succ g =>
        have hdo : ((c :: cs).drop markOpen.length).length ≤ cs.length := by
          simp only [List.length_drop, List.length_cons]
          have : 0 < markOpen.length := by decide
          omega
        have hdc : ((c :: cs).drop markClose.length).length ≤ cs.length := by
          simp only [List.length_drop, List.length_cons]
          have : 0 < markClose.length := by decide
          omega
        simp only [stripTagsF]
        split_ifs with hp1 hp2
        · exact ih g _ (by omega) (by omega)
        · exact ih g _ (by omega) (by omega)
        · rw [ih g cs (by omega) (by omega)]

theorem stripTags_nil : stripTags [] = [] := rfl

theorem stripTags_cons (c : Char) (cs : List Char) :
    stripTags (c :: cs)
      = if markOpen.isPrefixOf (c :: cs) then stripTags ((c :: cs).drop markOpen.length)
        else if markClose.isPrefixOf (c :: cs) then
          stripTags ((c :: cs).drop markClose.length)
        else c :: stripTags cs := by
  have hdo : ((c :: cs).drop markOpen.length).length ≤ cs.length := by
    simp only [List.length_drop, List.length_cons]
    have : 0 < markOpen.length := by decide
    omega
  have hdc : ((c :: cs).drop markClose.length).length ≤ cs.length := by
    simp only [List.length_drop, List.length_cons]
    have : 0 < markClose.length := by decide
    omega
  show stripTagsF (c :: cs).length (c :: cs) = _
  simp only [List.length_cons, stripTagsF]
  split_ifs with hp1 hp2
  · exact stripTagsF_fuel _ _ _ (by omega) (le_refl _)
  · exact stripTagsF_fuel _ _ _ (by omega) (le_refl _)
  · rfl

theorem natDigitsF_fuel : ∀ (f g n : Nat), n ≤ f → n ≤ g →
    natDigitsF f n = natDigitsF g n := by
  intro f
  induction f with
  | zero =>
    intro g n h1 _
    have : n = 0 := by omega
    subst this
    cases g with
    | zero => rfl
    | succ g => simp [natDigitsF]
  | succ f ih =>
    intro g n h1 h2
    cases g with
    | zero =>
      have : n = 0 := by omega
      subst this
      simp [natDigitsF]
    | succ g =>
      simp only [natDigitsF]
      split_ifs with hn
      · rfl
      · rw [ih g (n / 10) (by omega) (by omega)]

theorem natDigits_eq (n : Nat) :
    natDigits n = if n < 10 then [digitChar n]
      else natDigits (n / 10) ++ [digitChar (n % 10)] := by
  cases n with
  | zero => simp [natDigits, natDigitsF]
  | succ m =>
    show natDigitsF (m + 1) (m + 1) = _
    simp only [natDigitsF]
    split_ifs with hn
    · rfl
    · rw [natDigitsF_fuel m ((m + 1) / 10) ((m + 1) / 10) (by omega) (le_refl _)]
      rfl

/-! ### Similarity ratio lemmas -/

theorem lcsLen_le_left (a b : List Char) : lcsLen a b ≤ a.length := by
  induction a generalizing b with
  | nil => simp [lcsLen_nil_left]
  | cons x xs ih =>
    induction b with
    | nil => simp [lcsLen_nil_right]
    | cons y ys ihb =>
      rw [lcsLen_cons_cons]
      simp only [List.length_cons]
      split_ifs with hxy
      · exact Nat.succ_le_succ (ih ys)
      · refine max_le ?_ (Nat.le_succ_of_le (ih (y :: ys)))
        simpa using ihb

theorem lcsLen_le_right (a b : List Char) : lcsLen a b ≤ b.length := by
  induction a generalizing b with
  | nil => simp [lcsLen_nil_left]
  | cons x xs ih =>
    induction b with
    | nil => simp [lcsLen_nil_right]
    | cons y ys ihb =>
      rw [lcsLen_cons_cons]
      simp only [List.length_cons]
      split_ifs with hxy
      · exact Nat.succ_le_succ (ih ys)
      · refine max_le (Nat.le_succ_of_le ?_) ?_
        · simpa using ihb
        · simpa using ih (y :: ys)

theorem lcsLen_self (a : List Char) : lcsLen a a = a.length := by
  induction a with
  | nil => simp [lcsLen_nil_left]
  | cons x xs ih => simp [lcsLen_cons_cons, ih]

theorem fuzzRatio_eq_div (a b : List Char) (h : a.length + b.length ≠ 0) :
    fuzzRatio a b = (200 * (lcsLen a b : ℚ)) / ((a.length : ℚ) + (b.length : ℚ)) := by
  simp only [fuzzRatio, if_neg h]
  rw [Rat.mkRat_eq_divInt, Rat.divInt_eq_div]
  push_cast
  ring

theorem fuzzRatio_self (a : List Char) : fuzzRatio a a = 100 := by
  by_cases h : a.length + a.length = 0
  · simp only [fuzzRatio, if_pos h]
  · rw [fuzzRatio_eq_div a a h, lcsLen_self]
    have hl : a.length ≠ 0 := by omega
    have hq : ((a.length : ℕ) : ℚ) ≠ 0 := by exact_mod_cast hl
    field_simp
    ring

theorem fuzzRatio_le_100 (a b : List Char) : fuzzRatio a b ≤ 100 := by
  by_cases h : a.length + b.length = 0
  · simp only [fuzzRatio, if_pos h]
    exact le_refl _
  · rw [fuzzRatio_eq_div a b h]
    have h1 := lcsLen_le_left a b
    have h2 := lcsLen_le_right a b
    have hpos : (0 : ℚ) < (a.length : ℚ) + (b.length : ℚ) := by
      have h3 : 0 < a.length + b.length := by omega
      exact_mod_cast h3
    rw [div_le_iff₀ hpos]
    have h4 : 200 * lcsLen a b ≤ 100 * (a.length + b.length) := by omega
    calc (200 : ℚ) * (lcsLen a b : ℚ)
        = ((200 * lcsLen a b : ℕ) : ℚ) := by push_cast; ring
      _ ≤ ((100 * (a.length + b.length) : ℕ) : ℚ) := by exact_mod_cast h4
      _ = 100 * ((a.length : ℚ) + (b.length : ℚ)) := by push_cast; ring

/-! ### Well-formedness of tokens and spans -/

theorem tokWf_mono {a b : Nat} {l : List (Nat × List Char)} (h : a ≤ b) :
    TokWf b l → TokWf a l := by
  cases l with
  | nil => intro _; trivial
  | cons p rest =>
    rintro ⟨h1, h2, h3⟩
    exact ⟨le_trans h h1, h2, h3⟩

theorem strictWf_mono {a b : Nat} {l : List (Nat × Nat)} (h : a ≤ b) :
    StrictWf b l → StrictWf a l := by
  cases l with
  | nil => intro _; trivial
  | cons p rest =>
    rintro ⟨h1, h2, h3⟩
    exact ⟨le_trans h h1, h2, h3⟩

theorem tokenizeGo_wf (cs : List Char) : ∀ (i : Nat) (cur : Option (Nat × List Char)),
    (∀ s w, cur = some (s, w) → w ≠ [] ∧ s + w.length = i) →
    TokWf (match cur with | none => i | some (s, _) => s) (tokenizeGo cs i cur) := by
  induction cs with
  | nil =>
    intro i cur hcur
    match cur with
    | none => trivial
    | some (s, w) =>
      obtain ⟨hw, hi⟩ := hcur s w rfl
      refine ⟨le_refl s, by simpa using hw, ?_⟩
      trivial
  | cons c cs ih =>
    intro i cur hcur
    match cur with
    | none =>
      simp only [tokenizeGo]
      split_ifs with hw
      · exact ih (i + 1) (some (i, [c])) (by intro s w he; cases he; simp)
      · exact tokWf_mono (Nat.le_succ i) (ih (i + 1) none (by simp))
    | some (s, w) =>
      obtain ⟨hw, hi⟩ := hcur s w rfl
      simp only [tokenizeGo]
      split_ifs with hwc
      · exact ih (i + 1) (some (s, c :: w)) (by intro s' w' he; cases he; simp; omega)
      · refine ⟨le_refl s, by simpa using hw, ?_⟩
        have := ih (i + 1) none (by simp)
        refine tokWf_mono ?_ this
        simp only [List.length_reverse]
        omega

theorem tokenize_wf (text : List Char) : TokWf 0 (tokenize text) := by
  have := tokenizeGo_wf text 0 none (by simp)
  exact tokWf_mono (Nat.zero_le 0) this

theorem collect_wf (names : List (List Char)) (t : ℤ) :
    ∀ (toks : List (Nat × List Char)) (low : Nat), TokWf low toks →
      StrictWf low (collectPositions names t toks) := by
  intro toks
  induction toks with
  | nil => intro low _; trivial
  | cons p rest ih =>
    intro low h
    obtain ⟨h1, h2, h3⟩ := h
    have hlen : 0 < p.2.length := List.length_pos.mpr h2
    simp only [collectPositions]
    split_ifs with hstop hchk
    · exact strictWf_mono (by omega) (ih (p.1 + p.2.length) h3)
    · exact ⟨h1, by omega, ih (p.1 + p.2.length) h3⟩
    · exact strictWf_mono (by omega) (ih (p.1 + p.2.length) h3)

theorem strictWf_start_le {l : List (Nat × Nat)} : ∀ {low : Nat}, StrictWf low l →
    ∀ p ∈ l, low ≤ p.1 := by
  induction l with
  | nil => intro low _ p hp; cases hp
  | cons q rest ih =>
    intro low h p hp
    obtain ⟨h1, h2, h3⟩ := h
    rcases List.mem_cons.mp hp with he | hm
    · rw [he]; exact h1
    · exact le_trans (le_trans h1 (le_of_lt h2)) (ih h3 p hm)

theorem strictWf_pairwise {l : List (Nat × Nat)} : ∀ {low : Nat}, StrictWf low l →
    l.Pairwise (fun p q => p.1 < q.1) := by
  induction l with
  | nil => intro _ _; exact List.Pairwise.nil
  | cons q rest ih =>
    intro low h
    obtain ⟨h1, h2, h3⟩ := h
    refine List.pairwise_cons.mpr ⟨fun p hp => ?_, ih h3⟩
    exact lt_of_lt_of_le h2 (strictWf_start_le h3 p hp)

theorem strictWf_nodup {low : Nat} {l : List (Nat × Nat)} (h : StrictWf low l) : l.Nodup :=
  (strictWf_pairwise h).imp fun hlt he => absurd (he ▸ hlt) (lt_irrefl _)

theorem sortPos_eq_self {l : List (Nat × Nat)} : ∀ {low : Nat}, StrictWf low l →
    sortPos l = l := by
  induction l with
  | nil => intro _ _; rfl
  | cons p rest ih =>
    intro low h
    obtain ⟨h1, h2, h3⟩ := h
    have hrest : sortPos rest = rest := ih h3
    show insertPos p (List.foldr insertPos [] rest) = p :: rest
    rw [show List.foldr insertPos [] rest = sortPos rest from rfl, hrest]
    cases rest with
    | nil => rfl
    | cons q qs =>
      obtain ⟨hq1, hq2, hq3⟩ := h3
      simp only [insertPos]
      rw [if_pos]
      left
      omega

theorem sortedDedup_eq_self {low : Nat} {l : List (Nat × Nat)} (h : StrictWf low l) :
    sortedDedup l = l := by
  simp only [sortedDedup]
  rw [List.dedup_eq_self.mpr (strictWf_nodup h)]
  exact sortPos_eq_self h

theorem highlightPositions_eq (text nm : List Char) (t : ℤ) :
    highlightPositions text nm t
      = collectPositions (nm :: splitWhite nm) t (tokenize text) :=
  sortedDedup_eq_self (collect_wf _ _ _ 0 (tokenize_wf text))

theorem highlightPositions_wf (text nm : List Char) (t : ℤ) :
    StrictWf 0 (highlightPositions text nm t) := by
  rw [highlightPositions_eq]
  exact collect_wf _ _ _ 0 (tokenize_wf text)

/-! ### Membership characterisations -/

theorem checkNames_iff {w : List Char} {t : ℤ} {names : List (List Char)} :
    checkNames w t names = true
      ↔ ∃ n ∈ names, (t : ℚ) ≤ fuzzRatio (lowerStr w) (lowerStr n) := by
  induction names with
  | nil => simp [checkNames]
  | cons n ns ih =>
    simp only [checkNames]
    split_ifs with h
    · simp only [true_iff]
      exact ⟨n, List.mem_cons_self n ns, h⟩
    · rw [ih]
      constructor
      · rintro ⟨m, hm, hs⟩
        exact ⟨m, List.mem_cons_of_mem n hm, hs⟩
      · rintro ⟨m, hm, hs⟩
        rcases List.mem_cons.mp hm with he | hm'
        · exact absurd (he ▸ hs) h
        · exact ⟨m, hm', hs⟩

theorem checkNames_mono {w : List Char} {t1 t2 : ℤ} {names : List (List Char)}
    (hle : t1 ≤ t2) (h : checkNames w t2 names = true) : checkNames w t1 names = true := by
  obtain ⟨n, hn, hs⟩ := checkNames_iff.mp h
  refine checkNames_iff.mpr ⟨n, hn, le_trans ?_ hs⟩
  exact_mod_cast hle

theorem mem_collect {names : List (List Char)} {t : ℤ} :
    ∀ {toks : List (Nat × List Char)} {p : Nat × Nat},
      p ∈ collectPositions names t toks
        ↔ ∃ q ∈ toks, p = (q.1, q.1 + q.2.length)
            ∧ lowerStr q.2 ∉ STOPWORDS ∧ checkNames q.2 t names = true := by
  intro toks
  induction toks with
  | nil => simp [collectPositions]
  | cons q rest ih =>
    intro p
    simp only [collectPositions]
    split_ifs with hstop hchk
    · rw [ih]
      constructor
      · rintro ⟨r, hr, he, hs, hc⟩
        exact ⟨r, List.mem_cons_of_mem q hr, he, hs, hc⟩
      · rintro ⟨r, hr, he, hs, hc⟩
        rcases List.mem_cons.mp hr with hrq | hr'
        · exact absurd (hrq ▸ hstop) (hrq ▸ hs)
        · exact ⟨r, hr', he, hs, hc⟩
    · rw [List.mem_cons, ih]
      constructor
      · rintro (he | ⟨r, hr, hre, hs, hc⟩)
        · exact ⟨q, List.mem_cons_self q rest, he, hstop, hchk⟩
        · exact ⟨r, List.mem_cons_of_mem q hr, hre, hs, hc⟩
      · rintro ⟨r, hr, hre, hs, hc⟩
        rcases List.mem_cons.mp hr with hrq | hr'
        · exact Or.inl (hrq ▸ hre)
        · exact Or.inr ⟨r, hr', hre, hs, hc⟩
    · rw [ih]
      constructor
      · rintro ⟨r, hr, he, hs, hc⟩
        exact ⟨r, List.mem_cons_of_mem q hr, he, hs, hc⟩
      · rintro ⟨r, hr, he, hs, hc⟩
        rcases List.mem_cons.mp hr with hrq | hr'
        · rw [hrq] at hc
          exact absurd hc hchk
        · exact ⟨r, hr', he, hs, hc⟩

theorem tokWf_start_le {toks : List (Nat × List Char)} : ∀ {low : Nat}, TokWf low toks →
    ∀ p ∈ toks, low ≤ p.1 := by
  induction toks with
  | nil => intro low _ p hp; cases hp
  | cons q rest ih =>
    intro low h p hp
    obtain ⟨h1, h2, h3⟩ := h
    rcases List.mem_cons.mp hp with he | hm
    · rw [he]; exact h1
    · have hlen : 0 < q.2.length := List.length_pos.mpr h2
      exact le_trans (by omega) (ih h3 p hm)

theorem tokWf_pairwise {toks : List (Nat × List Char)} : ∀ {low : Nat}, TokWf low toks →
    toks.Pairwise (fun a b => a.1 < b.1) := by
  induction toks with
  | nil => intro _ _; exact List.Pairwise.nil
  | cons q rest ih =>
    intro low h
    obtain ⟨h1, h2, h3⟩ := h
    have hlen : 0 < q.2.length := List.length_pos.mpr h2
    refine List.pairwise_cons.mpr ⟨fun p hp => ?_, ih h3⟩
    have := tokWf_start_le h3 p hp
    omega

theorem pairwise_fst_inj {l : List (Nat × List Char)}
    (hp : l.Pairwise (fun a b => a.1 < b.1)) :
    ∀ {s : Nat} {w w' : List Char}, (s, w) ∈ l → (s, w') ∈ l → w = w' := by
  induction l with
  | nil => intro s w w' h1 _; cases h1
  | cons q rest ih =>
    intro s w w' h1 h2
    obtain ⟨hq, hrest⟩ := List.pairwise_cons.mp hp
    rcases List.mem_cons.mp h1 with he1 | hm1 <;> rcases List.mem_cons.mp h2 with he2 | hm2
    · rw [← he1] at he2
      exact ((Prod.mk.injEq s w' s w).mp he2).2.symm
    · have := hq _ hm2
      rw [← he1] at this
      exact absurd this (lt_irrefl s)
    · have := hq _ hm1
      rw [← he2] at this
      exact absurd this (lt_irrefl s)
    · exact ih hrest hm1 hm2

theorem tokenize_start_inj {text : List Char} {s : Nat} {w w' : List Char}
    (h1 : (s, w) ∈ tokenize text) (h2 : (s, w') ∈ tokenize text) : w = w' :=
  pairwise_fst_inj (tokWf_pairwise (tokenize_wf text)) h1 h2

/-! ### Stripping the highlight markers -/

theorem containsSeg_true {pat s : List Char} : containsSeg pat s = true ↔ pat <:+: s := by
  simp only [containsSeg, List.any_eq_true, List.mem_tails, List.isPrefixOf_iff_prefix]
  rw [ List.infix_iff_prefix_suffix]
  constructor
  · rintro ⟨tl, h1, h2⟩
    exact ⟨tl, h2, h1⟩
  · rintro ⟨tl, h1, h2⟩
    exact ⟨tl, h2, h1⟩

theorem containsSeg_false {pat s : List Char} : containsSeg pat s = false ↔ ¬ pat <:+: s := by
  rw [Bool.eq_false_iff]
  exact not_congr containsSeg_true

theorem clean_noPre {s : List Char} (h : Clean s) {t : List Char} (ht : t <:+: s) :
    ¬ markOpen <+: t ∧ ¬ markClose <+: t := by
  constructor <;> intro hp
  · exact (containsSeg_false.mp h.1) (( List.IsPrefix.isInfix hp).trans ht)
  · exact (containsSeg_false.mp h.2) (( List.IsPrefix.isInfix hp).trans ht)

theorem slice_isInf (l : List Char) (a b : Nat) : sliceL l a b <:+: l :=
  List.infix_iff_prefix_suffix.mpr ⟨l.drop a, List.take_prefix _ _, List.drop_suffix _ _⟩

theorem markOpen_inner :
    ∀ (i : Nat) (h : i < markOpen.length), 1 ≤ i → markOpen.get ⟨i, h⟩ ≠ '<' := by decide

theorem markClose_inner :
    ∀ (i : Nat) (h : i < markClose.length), 1 ≤ i → markClose.get ⟨i, h⟩ ≠ '<' := by decide

theorem markOpen_append_head (z : List Char) : (markOpen ++ z).head? = some '<' := by
  rw [List.head?_append]
  have h : markOpen.head? = some '<' := by decide
  rw [h]
  rfl

theorem markClose_append_head (z : List Char) : (markClose ++ z).head? = some '<' := by
  rw [List.head?_append]
  have h : markClose.head? = some '<' := by decide
  rw [h]
  rfl

theorem no_marker_across {m x rest : List Char}
    (hm1 : ∀ (i : Nat) (h : i < m.length), 1 ≤ i → m.get ⟨i, h⟩ ≠ '<')
    (hx : x ≠ []) (hnp : ¬ m <:+: x)
    (hr : rest = [] ∨ rest.head? = some '<') :
    ¬ m <+: x ++ rest := by
  intro h
  by_cases hlen : m.length ≤ x.length
  · apply hnp
    apply List.IsPrefix.isInfix
    rw [ List.prefix_iff_eq_take] at h
    rw [List.take_append_of_le_length hlen] at h
    rw [ List.prefix_iff_eq_take]
    exact h
  · push_neg at hlen
    have hmlen : m.length ≤ (x ++ rest).length := h.length_le
    have hlx : x.length < (x ++ rest).length := lt_of_lt_of_le hlen hmlen
    have hrne : rest ≠ [] := by
      intro he
      rw [he, List.append_nil] at hlx
      exact lt_irrefl _ hlx
    have hh : rest.head? = some '<' := by
      rcases hr with he | hh
      · exact absurd he hrne
      · exact hh
    have h0 : 0 < rest.length := List.length_pos.mpr hrne
    have hr0 : rest.get ⟨0, h0⟩ = '<' := by
      cases rest with
      | nil => exact absurd rfl hrne
      | cons r rs =>
        simp only [List.head?_cons, Option.some.injEq] at hh
        simp [hh]
    have hget := h.getElem hlen
    have hm : m.get ⟨x.length, hlen⟩ = '<' := by
      show getElem m x.length hlen = '<'
      rw [hget]
      rw [ List.getElem_append_right (le_refl x.length)]
      simp only [Nat.sub_self]
      exact hr0
    have hx1 : 1 ≤ x.length := by
      cases x with
      | nil => exact absurd rfl hx
      | cons c cs => simp
    exact hm1 x.length hlen hx1 hm

theorem stripTags_clean_append : ∀ (a rest : List Char),
    (∀ t, t <:+ a → ¬ markOpen <+: t ∧ ¬ markClose <+: t) →
    (rest = [] ∨ rest.head? = some '<') →
    stripTags (a ++ rest) = a ++ stripTags rest := by
  intro a
  induction a with
  | nil => intro rest _ _; simp
  | cons c a' ih =>
    intro rest hclean hr
    have hna : ¬ markOpen <:+: (c :: a') := by
      intro hinf
      rw [ List.infix_iff_prefix_suffix] at hinf
      obtain ⟨t, hp, hs⟩ := hinf
      exact (hclean t hs).1 hp
    have hnb : ¬ markClose <:+: (c :: a') := by
      intro hinf
      rw [ List.infix_iff_prefix_suffix] at hinf
      obtain ⟨t, hp, hs⟩ := hinf
      exact (hclean t hs).2 hp
    have h1 : ¬ markOpen <+: ((c :: a') ++ rest) :=
      no_marker_across markOpen_inner (by simp) hna hr
    have h2 : ¬ markClose <+: ((c :: a') ++ rest) :=
      no_marker_across markClose_inner (by simp) hnb hr
    have hb1 : ¬ (markOpen.isPrefixOf (c :: (a' ++ rest)) = true) := by
      rw [ List.isPrefixOf_iff_prefix]
      exact h1
    have hb2 : ¬ (markClose.isPrefixOf (c :: (a' ++ rest)) = true) := by
      rw [ List.isPrefixOf_iff_prefix]
      exact h2
    show stripTags (c :: (a' ++ rest)) = c :: (a' ++ stripTags rest)
    rw [stripTags_cons]
    rw [if_neg hb1, if_neg hb2]
    exact congrArg (c :: ·)
      (ih rest (fun t ht => hclean t (ht.trans (List.suffix_cons c a'))) hr)

theorem stripTags_cons_markOpen (x : List Char) :
    stripTags (markOpen ++ x) = stripTags x := by
  obtain ⟨c, cs, hc⟩ : ∃ c cs, markOpen ++ x = c :: cs := by
    cases hmo : markOpen with
    | nil => exact absurd hmo (by decide)
    | cons c cs => exact ⟨c, cs ++ x, by simp⟩
  rw [hc, stripTags_cons]
  have hpre : markOpen.isPrefixOf (c :: cs) = true := by
    rw [ List.isPrefixOf_iff_prefix, ← hc]
    exact List.prefix_append markOpen x
  rw [if_pos hpre, ← hc, List.drop_left]

theorem stripTags_cons_markClose (x : List Char) :
    stripTags (markClose ++ x) = stripTags x := by
  obtain ⟨c, cs, hc⟩ : ∃ c cs, markClose ++ x = c :: cs := by
    cases hmo : markClose with
    | nil => exact absurd hmo (by decide)
    | cons c cs => exact ⟨c, cs ++ x, by simp⟩
  have hno : ¬ (markOpen.isPrefixOf (c :: cs) = true) := by
    rw [ List.isPrefixOf_iff_prefix, ← hc]
    intro h
    have h1 : (1 : Nat) < markOpen.length := by decide
    have h2 : (1 : Nat) < markClose.length := by decide
    have hg := h.getElem h1
    have hl : (1 : Nat) < (markClose ++ x).length := lt_of_lt_of_le h1 h.length_le
    have e3 : (markClose ++ x).get ⟨1, hl⟩ = markClose.get ⟨1, h2⟩ :=
      List.getElem_append_left h2
    have hmm : markOpen.get ⟨1, h1⟩ = markClose.get ⟨1, h2⟩ := hg.trans e3
    have e1 : markOpen.get ⟨1, by decide⟩ = 'm' := by decide
    have e2 : markClose.get ⟨1, by decide⟩ = '/' := by decide
    have hcl : ('m' : Char) = '/' := by
      rw [← e1, ← e2]
      exact hmm
    exact absurd hcl (by decide)
  rw [hc, stripTags_cons]
  have hpre : markClose.isPrefixOf (c :: cs) = true := by
    rw [ List.isPrefixOf_iff_prefix, ← hc]
    exact List.prefix_append markClose x
  rw [if_neg hno, if_pos hpre, ← hc, List.drop_left]

theorem slice_assemble (l : List Char) {a b c : Nat} (hab : a ≤ b) (hbc : b ≤ c) :
    sliceL l a b ++ (sliceL l b c ++ l.drop c) = l.drop a := by
  have h1 : l.drop c = (l.drop b).drop (c - b) := by
    rw [List.drop_drop]
    congr 1
    omega
  have h2 : sliceL l b c ++ (l.drop b).drop (c - b) = l.drop b := by
    simp only [sliceL]
    exact List.take_append_drop (c - b) (l.drop b)
  rw [h1, h2]
  have h3 : l.drop b = (l.drop a).drop (b - a) := by
    rw [List.drop_drop]
    congr 1
    omega
  rw [h3]
  simp only [sliceL]
  exact List.take_append_drop (b - a) (l.drop a)

theorem strip_renderAux (text : List Char) (hclean : Clean text) :
    ∀ (ps : List (Nat × Nat)) (low : Nat), StrictWf low ps →
      stripTags (renderAux text ps low) = text.drop low := by
  intro ps
  induction ps with
  | nil =>
    intro low _
    have hcl : ∀ t, t <:+ text.drop low → ¬ markOpen <+: t ∧ ¬ markClose <+: t :=
      fun t ht => clean_noPre hclean ((ht.trans (List.drop_suffix low text)).isInfix)
    have := stripTags_clean_append (text.drop low) [] hcl (Or.inl rfl)
    simpa [stripTags_nil] using this
  | cons p rest ih =>
    intro low h
    obtain ⟨h1, h2, h3⟩ := h
    have hclA : ∀ t, t <:+ sliceL text low p.1 → ¬ markOpen <+: t ∧ ¬ markClose <+: t :=
      fun t ht => clean_noPre hclean ((ht.isInfix).trans (slice_isInf text low p.1))
    have hclB : ∀ t, t <:+ sliceL text p.1 p.2 → ¬ markOpen <+: t ∧ ¬ markClose <+: t :=
      fun t ht => clean_noPre hclean ((ht.isInfix).trans (slice_isInf text p.1 p.2))
    simp only [renderAux, List.append_assoc]
    rw [stripTags_clean_append _ _ hclA (Or.inr (markOpen_append_head _))]
    rw [stripTags_cons_markOpen]
    rw [stripTags_clean_append _ _ hclB (Or.inr (markClose_append_head _))]
    rw [stripTags_cons_markClose]
    rw [ih p.2 h3]
    exact slice_assemble text h1 (le_of_lt h2)

/-! ### Feedback store lemmas -/

theorem dlookup_dinsert_self {α : Type} (k : List Char) (v : α)
    (l : List (List Char × α)) : dlookup k (dinsert k v l) = some v := by
  induction l with
  | nil => simp [dinsert, dlookup]
  | cons p rest ih =>
    simp only [dinsert]
    split_ifs with h
    · simp [dlookup, h]
    · simp only [dlookup, if_neg h]
      exact ih

theorem dlookup_dinsert_ne {α : Type} {k k' : List Char} (hne : k' ≠ k) (v : α)
    (l : List (List Char × α)) : dlookup k' (dinsert k v l) = dlookup k' l := by
  induction l with
  | nil => simp [dinsert, dlookup, Ne.symm hne]
  | cons p rest ih =>
    simp only [dinsert]
    split_ifs with h
    · have h2 : ¬ (p.1 = k') := by
        rw [h]
        exact Ne.symm hne
      simp [dlookup, h2]
    · simp only [dlookup]
      split_ifs with h2
      · rfl
      · exact ih

theorem digitVal_digitChar {d : Nat} (h : d < 10) : digitVal (digitChar d) = d := by
  interval_cases d <;> decide

theorem parseNat_append (xs : List Char) (c : Char) :
    parseNat (xs ++ [c]) = 10 * parseNat xs + digitVal c := by
  simp [parseNat, List.foldl_append]

theorem parseNat_natDigits (n : Nat) : parseNat (natDigits n) = n := by
  induction n using Nat.strong_induction_on with
  | _ n ih =>
    rw [natDigits_eq]
    split_ifs with h
    · simp [parseNat, digitVal_digitChar h]
    · rw [parseNat_append]
      rw [ih (n / 10) (by omega)]
      rw [digitVal_digitChar (by omega : n % 10 < 10)]
      omega

theorem natDigits_inj {a b : Nat} (h : natDigits a = natDigits b) : a = b := by
  have h2 := congrArg parseNat h
  rwa [parseNat_natDigits, parseNat_natDigits] at h2

theorem rowKey_inj {a b : Nat} (h : rowKey a = rowKey b) : a = b := by
  simp only [rowKey] at h
  exact natDigits_inj (List.append_cancel_left h)

theorem append_commentSuffix_ne (l : List Char) : l ++ commentSuffix ≠ l := by
  intro h
  have h2 := congrArg List.length h
  rw [List.length_append] at h2
  have h3 : commentSuffix.length = 8 := by decide
  omega

theorem get_feedback_record_self (store : FStore) (row : Nat) (stype fv : List Char)
    (co : Option (List Char)) :
    get_feedback (record_feedback store row stype fv co) row stype
      = some (FV.b (fv == ("up").toList)) := by
  have hne2 : stype ≠ stype ++ commentSuffix := fun h =>
    append_commentSuffix_ne stype h.symm
  simp only [get_feedback, record_feedback]
  cases co with
  | none =>
    rw [dlookup_dinsert_self]
    simp only [Option.getD_some]
    rw [dlookup_dinsert_self]
  | some c =>
    rw [dlookup_dinsert_self]
    simp only [Option.getD_some]
    rw [dlookup_dinsert_ne hne2, dlookup_dinsert_self]

theorem get_comment_record_comment (store : FStore) (row : Nat) (stype fv c : List Char) :
    get_comment (record_feedback store row stype fv (some c)) row stype = FV.s c := by
  simp only [get_comment, record_feedback]
  rw [dlookup_dinsert_self]
  simp only [Option.getD_some]
  rw [dlookup_dinsert_self]
  rfl

theorem get_comment_record_none_self (store : FStore) (row : Nat) (stype fv : List Char) :
    get_comment (record_feedback store row stype fv none) row stype
      = get_comment store row stype := by
  simp only [get_comment, record_feedback]
  rw [dlookup_dinsert_self]
  simp only [Option.getD_some]
  rw [dlookup_dinsert_ne (append_commentSuffix_ne stype)]

/-! ### Highlighter assembly lemmas -/

theorem checkNames_gt100 {w : List Char} {t : ℤ} (ht : 100 < t) :
    ∀ (names : List (List Char)), checkNames w t names = false := by
  intro names
  induction names with
  | nil => rfl
  | cons n ns ih =>
    have hno : ¬ ((t : ℚ) ≤ fuzzRatio (lowerStr w) (lowerStr n)) := by
      have h1 := fuzzRatio_le_100 (lowerStr w) (lowerStr n)
      have h2 : (100 : ℚ) < (t : ℚ) := by exact_mod_cast ht
      exact not_le.mpr (lt_of_le_of_lt h1 h2)
    simp only [checkNames, if_neg hno]
    exact ih

theorem collect_gt100 {t : ℤ} (ht : 100 < t) (names : List (List Char)) :
    ∀ (toks : List (Nat × List Char)), collectPositions names t toks = [] := by
  intro toks
  induction toks with
  | nil => rfl
  | cons p rest ih =>
    simp only [collectPositions]
    split_ifs with h1 h2
    · exact ih
    · rw [checkNames_gt100 ht] at h2
      cases h2
    · exact ih

theorem highlightCore_of_empty {text nm : List Char} {t : ℤ}
    (h : collectPositions (nm :: splitWhite nm) t (tokenize text) = []) :
    highlightCore text nm t = text := by
  simp only [highlightCore]
  rw [if_pos h]

theorem highlight_eq_render {text nm : List Char} {t : ℤ}
    (hft : py_falsy (some text) = false) (hfn : py_falsy (some nm) = false)
    (hpos : highlightPositions text nm t ≠ []) :
    highlight_speaker_name (some text) (some nm) t
      = some (renderAux text (highlightPositions text nm t) 0) := by
  have hcol : collectPositions (nm :: splitWhite nm) t (tokenize text) ≠ [] := by
    rw [highlightPositions_eq] at hpos
    exact hpos
  simp only [highlight_speaker_name, hft, hfn, Bool.or_self, Bool.false_or,
    Bool.false_eq_true, if_false]
  simp only [highlightCore]
  rw [if_neg hcol]
  rfl

/-! ### Claims -/

/-- C1, counterexample to the claim as stated: for the text `"x</mark>"` and
speaker name `"x"` at threshold 80 a highlight is produced, yet stripping all
highlight markers from the output yields `"x"`, not the original text, because
the text itself contains a marker string. -/
theorem c1_counterexample :
    highlightPositions (("x</mark>").toList) (("x").toList) 80 ≠ []
    ∧ highlight_speaker_name (some (("x</mark>").toList)) (some (("x").toList)) 80
        = some (markOpen ++ ("x").toList ++ markClose ++ ("</mark>").toList)
    ∧ stripTags (markOpen ++ ("x").toList ++ markClose ++ ("</mark>").toList)
        ≠ ("x</mark>").toList :=
  ⟨by decide, by decide, by decide⟩

/-- C1 (amended): for every text containing neither highlight marker string,
and every nonempty text and speaker name and threshold producing at least one
highlighted span, the output is the rendering of the highlight span list, that
span list is well formed (spans nonempty, ascending by offset, and
non-overlapping, i.e. in source-text order), and stripping all highlight
markers from the output yields exactly the original text. -/
theorem c1_roundtrip (text nm : List Char) (t : ℤ)
    (hclean : Clean text)
    (hft : py_falsy (some text) = false) (hfn : py_falsy (some nm) = false)
    (hpos : highlightPositions text nm t ≠ []) :
    highlight_speaker_name (some text) (some nm) t
      = some (renderAux text (highlightPositions text nm t) 0)
    ∧ stripTags (renderAux text (highlightPositions text nm t) 0) = text
    ∧ StrictWf 0 (highlightPositions text nm t) := by
  refine ⟨highlight_eq_render hft hfn hpos, ?_, highlightPositions_wf text nm t⟩
  have h := strip_renderAux text hclean (highlightPositions text nm t) 0
    (highlightPositions_wf text nm t)
  simpa using h

/-- Witness for C1 (amended) on the clean text `"Jane x"`. -/
theorem c1_witness :
    Clean (("Jane x").toList)
    ∧ py_falsy (some (("Jane x").toList)) = false
    ∧ py_falsy (some (("Jane").toList)) = false
    ∧ highlightPositions (("Jane x").toList) (("Jane").toList) 80 ≠ []
    ∧ stripTags (renderAux (("Jane x").toList)
        (highlightPositions (("Jane x").toList) (("Jane").toList) 80) 0)
      = ("Jane x").toList :=
  ⟨by decide, by decide, by decide, by decide,
    (c1_roundtrip (("Jane x").toList) (("Jane").toList) 80
      (by decide) (by decide) (by decide) (by decide)).2.1⟩

/-- C2: a word token of the text is recorded as the span
`(start, start + length)` exactly when it is not a stopword and some entry of
the list consisting of the full speaker name followed by its
whitespace-separated parts — the loop scans that list in order and stops at
the first hit, all hits recording the same span — reaches the threshold; and
`highlight("Mr. Smith responded", "John Smith", 80)` highlights exactly
"Smith", a name part, although "John" never appears. -/
theorem c2_word_match (text nm : List Char) (t : ℤ) (s : Nat) (w : List Char)
    (htok : (s, w) ∈ tokenize text) :
    ((s, s + w.length) ∈ highlightPositions text nm t
      ↔ lowerStr w ∉ STOPWORDS
        ∧ ∃ n ∈ nm :: splitWhite nm, (t : ℚ) ≤ fuzzRatio (lowerStr w) (lowerStr n))
    ∧ highlight_speaker_name (some (("Mr. Smith responded").toList))
        (some (("John Smith").toList)) 80
      = some (("Mr. ").toList ++ markOpen ++ ("Smith").toList ++ markClose
          ++ (" responded").toList) := by
  constructor
  · rw [highlightPositions_eq]
    constructor
    · intro hp
      obtain ⟨q, hq, he, hs, hc⟩ := mem_collect.mp hp
      rw [Prod.mk.injEq] at he
      obtain ⟨he1, he2⟩ := he
      have hq' : (s, q.2) ∈ tokenize text := by
        rw [he1]
        simpa using hq
      have hw : w = q.2 := tokenize_start_inj htok hq'
      rw [← hw] at hs hc
      exact ⟨hs, checkNames_iff.mp hc⟩
    · rintro ⟨hs, hex⟩
      exact mem_collect.mpr ⟨(s, w), htok, rfl, hs, checkNames_iff.mpr hex⟩
  · decide

/-- Witness for C2 at the token "Smith" of the spec's example. -/
theorem c2_witness :
    ((4, ("Smith").toList) ∈ tokenize (("Mr. Smith responded").toList))
    ∧ ((4, 4 + (("Smith").toList).length)
          ∈ highlightPositions (("Mr. Smith responded").toList)
              (("John Smith").toList) 80
        ↔ lowerStr (("Smith").toList) ∉ STOPWORDS
          ∧ ∃ n ∈ (("John Smith").toList) :: splitWhite (("John Smith").toList),
            ((80 : ℤ) : ℚ) ≤ fuzzRatio (lowerStr (("Smith").toList)) (lowerStr n)) :=
  ⟨by decide,
    (c2_word_match (("Mr. Smith responded").toList) (("John Smith").toList) 80 4
      (("Smith").toList) (by decide)).1⟩

/-- C3: threshold monotonicity — for a fixed text and name, every span
highlighted at the larger threshold is also highlighted at any smaller one. -/
theorem c3_threshold_mono (text nm : List Char) (t1 t2 : ℤ) (hlt : t1 < t2) :
    ∀ p ∈ highlightPositions text nm t2, p ∈ highlightPositions text nm t1 := by
  intro p hp
  rw [highlightPositions_eq] at hp ⊢
  obtain ⟨q, hq, he, hs, hc⟩ := mem_collect.mp hp
  exact mem_collect.mpr ⟨q, hq, he, hs, checkNames_mono (le_of_lt hlt) hc⟩

/-- Witness for C3 at thresholds 70 < 80. -/
theorem c3_witness :
    (70 : ℤ) < 80
    ∧ (0, 4) ∈ highlightPositions (("Jane x").toList) (("Jane").toList) 80
    ∧ (0, 4) ∈ highlightPositions (("Jane x").toList) (("Jane").toList) 70 :=
  ⟨by decide, by decide,
    c3_threshold_mono (("Jane x").toList) (("Jane").toList) 70 80 (by decide)
      (0, 4) (by decide)⟩

/-- C4: identity on empty or absent inputs — empty or absent text is returned
unchanged, and any text is returned unchanged when the speaker name is empty
or absent. -/
theorem c4_identity_on_empty (text nm : Option (List Char)) (t : ℤ) :
    highlight_speaker_name (some []) nm t = some []
    ∧ highlight_speaker_name none nm t = none
    ∧ highlight_speaker_name text (some []) t = text
    ∧ highlight_speaker_name text none t = text := by
  refine ⟨?_, ?_, ?_, ?_⟩ <;> simp [highlight_speaker_name, py_falsy]

/-- C5: a word whose lowercase form is in the stopword set is never
highlighted regardless of threshold or similarity; in the spec's example only
"Ann" is wrapped, never "In" or "the". -/
theorem c5_stopword_never (text nm : List Char) (t : ℤ) (s : Nat) (w : List Char)
    (htok : (s, w) ∈ tokenize text) (hstop : lowerStr w ∈ STOPWORDS) :
    (s, s + w.length) ∉ highlightPositions text nm t
    ∧ highlight_speaker_name (some (("In the meeting, Ann spoke").toList))
        (some (("Ann").toList)) 80
      = some (("In the meeting, ").toList ++ markOpen ++ ("Ann").toList ++ markClose
          ++ (" spoke").toList) := by
  constructor
  · rw [highlightPositions_eq]
    intro hp
    obtain ⟨q, hq, he, hs, _⟩ := mem_collect.mp hp
    rw [Prod.mk.injEq] at he
    obtain ⟨he1, _⟩ := he
    have hq' : (s, q.2) ∈ tokenize text := by
      rw [he1]
      simpa using hq
    have hw : w = q.2 := tokenize_start_inj htok hq'
    rw [← hw] at hs
    exact hs hstop
  · decide

/-- Witness for C5 at the stopword token "In" of the spec's example. -/
theorem c5_witness :
    ((0, ("In").toList) ∈ tokenize (("In the meeting, Ann spoke").toList))
    ∧ lowerStr (("In").toList) ∈ STOPWORDS
    ∧ (0, 0 + (("In").toList).length)
        ∉ highlightPositions (("In the meeting, Ann spoke").toList)
            (("Ann").toList) 80 :=
  ⟨by decide, by decide,
    (c5_stopword_never (("In the meeting, Ann spoke").toList) (("Ann").toList) 80 0
      (("In").toList) (by decide) (by decide)).1⟩

/-- C6: totality — for every possibly absent text and name and every integer
threshold, also outside [0,100], the function returns a result (present
exactly when the text is present, never an error), and thresholds above 100
are accepted and simply match nothing, returning the text unchanged. -/
theorem c6_total (text nm : Option (List Char)) (t : ℤ) :
    (highlight_speaker_name text nm t).isSome = text.isSome
    ∧ (100 < t → highlight_speaker_name text nm t = text) := by
  constructor
  · cases text with
    | none => simp [highlight_speaker_name, py_falsy]
    | some tx =>
      cases nm with
      | none => simp [highlight_speaker_name, py_falsy]
      | some nn =>
        simp only [highlight_speaker_name]
        split_ifs with hg <;> simp
  · intro ht
    cases text with
    | none => simp [highlight_speaker_name, py_falsy]
    | some tx =>
      cases nm with
      | none => simp [highlight_speaker_name, py_falsy]
      | some nn =>
        have hc : highlightCore tx nn t = tx :=
          highlightCore_of_empty (collect_gt100 ht _ _)
        simp only [highlight_speaker_name]
        split_ifs with hg
        · rfl
        · simp [hc]

/-- Witness for C6: the out-of-range threshold 101 is accepted and behaves as
the identity. -/
theorem c6_witness :
    (100 : ℤ) < 101
    ∧ highlight_speaker_name (some (("Jane").toList)) (some (("Jane").toList)) 101
        = some (("Jane").toList) :=
  ⟨by decide, (c6_total (some (("Jane").toList)) (some (("Jane").toList)) 101).2
    (by decide)⟩

/-- C7: the similarity metric scores 100 on case-insensitively identical
strings, so a non-stopword word token equal after lowercasing to the name or
one of its parts is highlighted at every threshold at most 100; in the spec's
example exactly "Jane" and "Doe" are wrapped ("was" is a stopword and "here"
scores low). -/
theorem c7_exact_match (a b text nm : List Char) (t : ℤ) (s : Nat) (w n : List Char)
    (hab : lowerStr a = lowerStr b) (ht : t ≤ 100)
    (htok : (s, w) ∈ tokenize text) (hs : lowerStr w ∉ STOPWORDS)
    (hn : n ∈ nm :: splitWhite nm) (hwn : lowerStr w = lowerStr n) :
    fuzzRatio (lowerStr a) (lowerStr b) = 100
    ∧ (s, s + w.length) ∈ highlightPositions text nm t
    ∧ highlight_speaker_name (some (("Jane Doe was here").toList))
        (some (("Jane Doe").toList)) 80
      = some (markOpen ++ ("Jane").toList ++ markClose ++ (" ").toList
          ++ markOpen ++ ("Doe").toList ++ markClose ++ (" was here").toList) := by
  refine ⟨?_, ?_, by decide⟩
  · rw [hab]
    exact fuzzRatio_self _
  · rw [highlightPositions_eq]
    refine mem_collect.mpr ⟨(s, w), htok, rfl, hs, checkNames_iff.mpr ⟨n, hn, ?_⟩⟩
    rw [hwn, fuzzRatio_self]
    exact_mod_cast ht

/-- Witness for C7 at the token "Jane" of the spec's example. -/
theorem c7_witness :
    lowerStr (("Jane").toList) = lowerStr (("jane").toList)
    ∧ (80 : ℤ) ≤ 100
    ∧ ((0, ("Jane").toList) ∈ tokenize (("Jane Doe was here").toList))
    ∧ lowerStr (("Jane").toList) ∉ STOPWORDS
    ∧ ("Jane").toList ∈ (("Jane Doe").toList) :: splitWhite (("Jane Doe").toList)
    ∧ fuzzRatio (lowerStr (("Jane").toList)) (lowerStr (("jane").toList)) = 100
    ∧ (0, 0 + (("Jane").toList).length)
        ∈ highlightPositions (("Jane Doe was here").toList) (("Jane Doe").toList) 80 := by
  have h := c7_exact_match (("Jane").toList) (("jane").toList)
    (("Jane Doe was here").toList) (("Jane Doe").toList) 80 0 (("Jane").toList)
    (("Jane").toList) (by decide) (by decide) (by decide) (by decide) (by decide)
    (by decide)
  exact ⟨by decide, by decide, by decide, by decide, by decide, h.1, h.2.1⟩

/-- C8: when no word produces a match span the highlighter returns the text
verbatim, with no markup and no error. -/
theorem c8_no_match_verbatim (text nm : List Char) (t : ℤ)
    (h : collectPositions (nm :: splitWhite nm) t (tokenize text) = []) :
    highlight_speaker_name (some text) (some nm) t = some text := by
  have hc : highlightCore text nm t = text := highlightCore_of_empty h
  simp only [highlight_speaker_name]
  split_ifs with hg
  · rfl
  · simp [hc]

/-- Witness for C8 at the spec's example input. -/
theorem c8_witness :
    collectPositions ((("Zyxwvq").toList) :: splitWhite (("Zyxwvq").toList)) 90
        (tokenize (("Completely unrelated text").toList)) = []
    ∧ highlight_speaker_name (some (("Completely unrelated text").toList))
        (some (("Zyxwvq").toList)) 90
      = some (("Completely unrelated text").toList) :=
  ⟨by decide,
    c8_no_match_verbatim (("Completely unrelated text").toList) (("Zyxwvq").toList)
      90 (by decide)⟩

/-- C9: when no thumbs feedback is stored for the row and summary type and a
comment differing from the stored one is entered, the comment-saving logic
records the feedback value "up" — stored as `true` — together with the
comment. -/
theorem c9_comment_defaults_up (store : FStore) (row : Nat) (stype c : List Char)
    (hfb : get_feedback store row stype = none)
    (hne : strNeFv c (get_comment store row stype) = true) :
    get_feedback (save_comment store row stype c) row stype = some (FV.b true)
    ∧ get_comment (save_comment store row stype c) row stype = FV.s c := by
  have hsave : save_comment store row stype c
      = record_feedback store row stype (derive_fv (get_feedback store row stype))
          (some c) := by
    simp [save_comment, hne]
  rw [hsave, hfb]
  constructor
  · rw [get_feedback_record_self]
    simp [derive_fv]
  · exact get_comment_record_comment store row stype _ c

/-- Witness for C9 on the empty store. -/
theorem c9_witness :
    get_feedback [] 0 (("issue").toList) = none
    ∧ strNeFv (("good").toList) (get_comment [] 0 (("issue").toList)) = true
    ∧ get_feedback (save_comment [] 0 (("issue").toList) (("good").toList)) 0
        (("issue").toList) = some (FV.b true)
    ∧ get_comment (save_comment [] 0 (("issue").toList) (("good").toList)) 0
        (("issue").toList) = FV.s (("good").toList) := by
  have h := c9_comment_defaults_up [] 0 (("issue").toList) (("good").toList)
    (by decide) (by decide)
  exact ⟨by decide, by decide, h.1, h.2⟩

/-- C10, counterexample to the claim as stated: updating summary type
"issue_comment" of row 0 with no comment rewrites the dictionary key that
`get_comment` reads for the different summary type "issue" of the same row, so
an entry of another summary type changes. -/
theorem c10_counterexample :
    get_comment (record_feedback
        [(rowKey 0, [(("issue_comment").toList, FV.s (("old").toList))])]
        0 (("issue_comment").toList) (("up").toList) none) 0 (("issue").toList)
      ≠ get_comment [(rowKey 0, [(("issue_comment").toList, FV.s (("old").toList))])]
          0 (("issue").toList) := by decide

/-- C10 (amended): `record_feedback` with no comment changes only the entry
stored under the given summary type: the thumbs entry of every other
(row, type) pair is unchanged, the comment entry of every other pair is
unchanged provided that pair's comment key `stype' ++ "_comment"` is not the
very key being updated (the collision of the counterexample), and the stored
comment of the updated pair itself is always unchanged. -/
theorem c10_frame (store : FStore) (row : Nat) (stype fv : List Char)
    (row' : Nat) (stype' : List Char)
    (hother : row' ≠ row ∨ stype' ≠ stype)
    (hcol : stype' ++ commentSuffix ≠ stype) :
    get_feedback (record_feedback store row stype fv none) row' stype'
      = get_feedback store row' stype'
    ∧ get_comment (record_feedback store row stype fv none) row' stype'
      = get_comment store row' stype'
    ∧ get_comment (record_feedback store row stype fv none) row stype
      = get_comment store row stype := by
  refine ⟨?_, ?_, get_comment_record_none_self store row stype fv⟩
  · by_cases hrow : row' = row
    · subst hrow
      have hst : stype' ≠ stype := by
        rcases hother with h | h
        · exact absurd rfl h
        · exact h
      simp only [get_feedback, record_feedback]
      rw [dlookup_dinsert_self]
      simp only [Option.getD_some]
      rw [dlookup_dinsert_ne hst]
    · have hk : rowKey row' ≠ rowKey row := fun h => hrow (rowKey_inj h)
      simp only [get_feedback, record_feedback]
      rw [dlookup_dinsert_ne hk]
  · by_cases hrow : row' = row
    · subst hrow
      simp only [get_comment, record_feedback]
      rw [dlookup_dinsert_self]
      simp only [Option.getD_some]
      rw [dlookup_dinsert_ne hcol]
    · have hk : rowKey row' ≠ rowKey row := fun h => hrow (rowKey_inj h)
      simp only [get_comment, record_feedback]
      rw [dlookup_dinsert_ne hk]

/-- Witness for C10 (amended) on the empty store and another row. -/
theorem c10_witness :
    ((1 : Nat) ≠ 0 ∨ ("issue").toList ≠ ("issue").toList)
    ∧ ("issue").toList ++ commentSuffix ≠ ("issue").toList
    ∧ get_feedback (record_feedback [] 0 (("issue").toList) (("up").toList) none) 1
        (("issue").toList) = get_feedback [] 1 (("issue").toList) :=
  ⟨Or.inl (by decide), by decide,
    (c10_frame [] 0 (("issue").toList) (("up").toList) 1 (("issue").toList)
      (Or.inl (by decide)) (by decide)).1⟩

end PosExtract
